import Mathlib

set_option autoImplicit false

/-!
Shallow embedding of the LockraWalletAI repository
(`daemonFlows/assistants/Utils.py` and `daemonFlows/jobs/trackFreshMints.py`)
together with theorems settling the specification claims.

Conventions of the embedding:
* Python ints are `Int`, Python floats are modelled as `ℚ` (all arithmetic the
  spec exercises is exact).
* Fallible Python code (raising exceptions) is modelled with `Option`/`Except`:
  `none` / `Except.error` marks a raised exception.
* The external RPC client is an oracle: the responses of `get_slot` and
  `get_program_accounts` are explicit `Except` parameters, an `Except.error`
  standing for a network / RPC failure.
* The ambient clock read by `time.time()` is an explicit `ℚ` parameter.
-/

/-! ## Data model -/

/-- One program account as consumed by `track_fresh_mints`: `acct["pubkey"]`
and `acct["account"]["data"]` (a sequence whose index 1 the code reads as a
slot number). -/
structure Account where
  pubkey : String
  data : List Int
deriving DecidableEq, Repr

/-- One record produced by `track_fresh_mints`: `{"mint": ..., "firstSeenSlot": ...}`. -/
structure FreshMint where
  mint : String
  firstSeenSlot : Int
deriving DecidableEq, Repr

/-! ## Utils.py -/

/-- Embeds `now_ms` from `Utils.py`: `int(time.time() * 1000)`.  The ambient
clock reading (seconds, as returned by `time.time()`) is the explicit argument
`clock`; Python `int()` truncates toward zero, which on a rational is
`Int.tdiv num den`. -/
def now_ms (clock : ℚ) : Int :=
  Int.tdiv (clock * 1000).num ((clock * 1000).den : Int)

/-- Embeds Python `range(start, stop, step)` as the list of produced indices;
`none` models the `ValueError` raised when `step == 0`.  The element count is
`max 0 ⌈(stop-start)/step⌉` for positive step and symmetrically for negative
step, exactly Python semantics. -/
def pyRange (start stop step : Int) : Option (List Int) :=
  if step = 0 then none
  else if 0 < step then
    some ((List.range (((stop - start).toNat + step.toNat - 1) / step.toNat)).map
      (fun k : Nat => start + step * (k : Int)))
  else
    some ((List.range (((start - stop).toNat + (-step).toNat - 1) / (-step).toNat)).map
      (fun k : Nat => start + step * (k : Int)))

/-- Embeds the Python slice `l[i : j]` for nonnegative bounds (the only ones
`chunk_list` produces): drop the first `i` elements, take `j - i` of the rest,
both clamped, never raising. -/
def pySlice {α : Type} (l : List α) (i j : Int) : List α :=
  (l.drop i.toNat).take (j - i).toNat

/-- Embeds `chunk_list` from `Utils.py`:
`[data[i : i + size] for i in range(0, len(data), size)]`.
`none` models the `ValueError` from a zero `range` step. -/
def chunk_list {α : Type} (data : List α) (size : Int) : Option (List (List α)) :=
  (pyRange 0 (data.length : Int) size).map
    (fun idxs => idxs.map (fun i => pySlice data i (i + size)))

/-- Embeds `flatten` from `Utils.py`:
`[item for sublist in list_of_lists for item in sublist]`, which builds the
result left to right, appending each sublist. -/
def flatten {α : Type} (list_of_lists : List (List α)) : List α :=
  list_of_lists.foldl (fun acc sublist => acc ++ sublist) []

/-- Embeds `mean` from `Utils.py`:
`sum(values) / len(values) if values else 0.0`. -/
def mean (values : List ℚ) : ℚ :=
  if values = [] then 0 else values.sum / (values.length : ℚ)

/-! ## trackFreshMints.py -/

/-- Embeds the decoding step `acct["account"]["data"][1]`: reading index 1 of
the data sequence, which raises an `IndexError` when the sequence is shorter
than 2. -/
def decodeSlot (acct : Account) : Except String Int :=
  match acct.data.get? 1 with
  | some s => Except.ok s
  | none => Except.error "IndexError"

/-- Embeds the `for acct in resp["result"]` loop of `track_fresh_mints`:
`fresh` is the accumulator list, the slot of each account is decoded in order, the
account is appended exactly when `start_slot <= slot <= current_slot`, and a
decoding exception aborts the whole loop. -/
def freshLoop (start_slot current_slot : Int) :
    List FreshMint → List Account → Except String (List FreshMint)
  | fresh, [] => Except.ok fresh
  | fresh, acct :: rest =>
    match decodeSlot acct with
    | Except.error e => Except.error e
    | Except.ok slot =>
      if start_slot ≤ slot ∧ slot ≤ current_slot then
        freshLoop start_slot current_slot
          (fresh ++ [{ mint := acct.pubkey, firstSeenSlot := slot }]) rest
      else
        freshLoop start_slot current_slot fresh rest

/-- Embeds `track_fresh_mints(lookback_slots=5000)`.  `slotResp` is the oracle
for `client.get_slot()["result"]` and `acctsResp` the oracle for
`client.get_program_accounts(PROGRAM_ID)["result"]`; each is `Except.error`
when the corresponding RPC call raises, and an RPC error propagates unchanged
to the caller, aborting the remaining steps. -/
def track_fresh_mints (lookback_slots : Int) (slotResp : Except String Int)
    (acctsResp : Except String (List Account)) : Except String (List FreshMint) :=
  match slotResp with
  | Except.error e => Except.error e
  | Except.ok current_slot =>
    match acctsResp with
    | Except.error e => Except.error e
    | Except.ok accounts =>
      freshLoop (current_slot - lookback_slots) current_slot [] accounts

/-- Embeds the literal guard of the driver loop `while True:`. -/
def loop_guard : Bool := true

/-- Small step of the driver loop: from iteration `n`, run another iteration
when the guard holds, exit (`none`) otherwise. -/
def loop_step (n : Nat) : Option Nat :=
  if loop_guard then some (n + 1) else none

/-- Runs the driver loop for `n` steps from iteration 0; `none` means the loop
has exited by then. -/
def run_loop : Nat → Option Nat
  | 0 => some 0
  | n + 1 => (run_loop n).bind loop_step

/-- Embeds `time.sleep(300)`: the wall-clock delay of one loop iteration, in
seconds. -/
def sleep_seconds : Nat := 300

/-- Observable content of one iteration of the `__main__` loop: the result of
`track_fresh_mints()` at its default lookback of 5000 (which the loop prints)
paired with the sleep duration. -/
def main_iteration (slotResp : Except String Int)
    (acctsResp : Except String (List Account)) :
    Except String (List FreshMint) × Nat :=
  (track_fresh_mints 5000 slotResp acctsResp, sleep_seconds)

/-! ## Recursive reformulation of chunking, for the proofs -/

/-- Recursive chunking with chunk width `s + 1`; proved below to agree with
`chunk_list` for every positive size. -/
def chunksAux {α : Type} (s : Nat) : List α → List (List α)
  | [] => []
  | a :: l => ((a :: l).take (s + 1)) :: chunksAux s ((a :: l).drop (s + 1))
termination_by l => l.length
decreasing_by simp; omega

lemma foldl_append_eq_flatten {α : Type} (ll : List (List α)) :
    ∀ acc : List α, ll.foldl (fun a s => a ++ s) acc = acc ++ ll.flatten := by
  induction ll with
  | nil => intro acc; simp
  | cons hd tl ih => intro acc; simp [List.foldl_cons, ih, List.append_assoc]

lemma flatten_eq_flatten {α : Type} (ll : List (List α)) : flatten ll = ll.flatten := by
  simpa using foldl_append_eq_flatten ll []

lemma chunksAux_flatten {α : Type} (s : Nat) (l : List α) :
    (chunksAux s l).flatten = l := by
  induction l using chunksAux.induct s with
  | case1 => simp [chunksAux]
  | case2 a l ih => rw [chunksAux, List.flatten_cons, ih, List.take_append_drop]

lemma chunksAux_eq_nil_iff {α : Type} (s : Nat) (l : List α) :
    chunksAux s l = [] ↔ l = [] := by
  cases l with
  | nil => simp [chunksAux]
  | cons a t => rw [chunksAux]; simp

lemma range_chunks {α : Type} (s : Nat) (l : List α) :
    (List.range ((l.length + (s + 1) - 1) / (s + 1))).map
      (fun k => (l.drop ((s + 1) * k)).take (s + 1)) = chunksAux s l := by
  induction l using chunksAux.induct s with
  | case1 =>
    have hc : (([] : List α).length + (s + 1) - 1) / (s + 1) = 0 := by
      have h1 : ([] : List α).length + (s + 1) - 1 = s := by simp
      rw [h1]
      exact Nat.div_eq_of_lt (Nat.lt_succ_self s)
    rw [hc]
    simp [chunksAux]
  | case2 a t ih =>
    have hcount : ((a :: t).length + (s + 1) - 1) / (s + 1) = t.length / (s + 1) + 1 := by
      have h1 : (a :: t).length + (s + 1) - 1 = t.length + (s + 1) := by
        simp only [List.length_cons]
        omega
      rw [h1, Nat.add_div_right _ (Nat.succ_pos s)]
    have hcount2 : (((a :: t).drop (s + 1)).length + (s + 1) - 1) / (s + 1) =
        t.length / (s + 1) := by
      rcases le_or_lt s t.length with hle | hlt
      · have h2 : ((a :: t).drop (s + 1)).length + (s + 1) - 1 = t.length := by
          simp only [List.length_drop, List.length_cons]
          omega
        rw [h2]
      · have h2 : ((a :: t).drop (s + 1)).length = 0 := by
          simp only [List.length_drop, List.length_cons]
          omega
        rw [h2, Nat.div_eq_of_lt (by omega), Nat.div_eq_of_lt (by omega)]
    have hfun : ((fun k => ((a :: t).drop ((s + 1) * k)).take (s + 1)) ∘ Nat.succ) =
        fun k => (((a :: t).drop (s + 1)).drop ((s + 1) * k)).take (s + 1) := by
      funext k
      show ((a :: t).drop ((s + 1) * (k + 1))).take (s + 1) = _
      rw [List.drop_drop]
      congr 2
      ring
    rw [chunksAux, ← ih, hcount, List.range_succ_eq_map, List.map_cons, List.map_map,
      hcount2, hfun]
    simp

lemma chunk_list_pos {α : Type} (s : Nat) (data : List α) :
    chunk_list data ((s : Int) + 1) = some (chunksAux s data) := by
  unfold chunk_list pyRange
  rw [if_neg (by omega), if_pos (by omega)]
  have e1 : (((data.length : Int) - 0)).toNat = data.length := by omega
  have e2 : (((s : Int) + 1)).toNat = s + 1 := by omega
  rw [e1, e2, Option.map_some', List.map_map]
  have hfun : ((fun i => pySlice data i (i + ((s : Int) + 1))) ∘
        (fun k : Nat => (0 : Int) + ((s : Int) + 1) * (k : Int))) =
      fun k : Nat => (data.drop ((s + 1) * k)).take (s + 1) := by
    funext k
    show pySlice data ((0 : Int) + ((s : Int) + 1) * (k : Int))
        (((0 : Int) + ((s : Int) + 1) * (k : Int)) + ((s : Int) + 1)) = _
    unfold pySlice
    have hi : ((0 : Int) + ((s : Int) + 1) * (k : Int)) = (((s + 1) * k : Nat) : Int) := by
      push_cast
      ring
    rw [hi, Int.toNat_natCast]
    congr 1
    generalize (s + 1) * k = m
    omega
  rw [hfun]
  rw [range_chunks s data]

lemma chunksAux_shape {α : Type} (s : Nat) (l : List α) :
    (∀ c ∈ (chunksAux s l).dropLast, c.length = s + 1) ∧
    (∀ c ∈ chunksAux s l, c.length ≤ s + 1 ∧ c ≠ []) := by
  induction l using chunksAux.induct s with
  | case1 => simp [chunksAux]
  | case2 a t ih =>
    rw [chunksAux]
    by_cases hnil : (a :: t).drop (s + 1) = []
    · rw [hnil]
      constructor
      · simp [chunksAux]
      · intro c hc
        simp only [chunksAux, List.mem_singleton] at hc
        subst hc
        refine ⟨?_, ?_⟩
        · rw [List.length_take]
          omega
        · rw [List.take_succ_cons]
          exact List.cons_ne_nil _ _
    · have hlen : s + 1 < (a :: t).length := by
        by_contra hcon
        exact hnil (List.drop_eq_nil_iff.mpr (by omega))
      have hne : chunksAux s ((a :: t).drop (s + 1)) ≠ [] := by
        rw [Ne, chunksAux_eq_nil_iff]
        exact hnil
      constructor
      · intro c hc
        rw [List.dropLast_cons_of_ne_nil hne] at hc
        rcases List.mem_cons.mp hc with h | h
        · subst h
          rw [List.length_take]
          omega
        · exact ih.1 c h
      · intro c hc
        rcases List.mem_cons.mp hc with h | h
        · subst h
          refine ⟨?_, ?_⟩
          · rw [List.length_take]
            omega
          · rw [List.take_succ_cons]
            exact List.cons_ne_nil _ _
        · exact ih.2 c h

/-! ## Theorems for the claims -/

/-- Claim C3: `mean` returns 0 on the empty list and the arithmetic mean, sum
divided by a provably nonzero length, on every non-empty list; in particular
`mean([]) = 0.0` and `mean([2,4]) = 3.0`. -/
theorem mean_spec :
    mean [] = 0 ∧
    (∀ l : List ℚ, l ≠ [] → (l.length : ℚ) ≠ 0 ∧ mean l = l.sum / (l.length : ℚ)) ∧
    mean [2, 4] = 3 := by
  refine ⟨rfl, ?_, by simp only [mean]; rw [if_neg (by simp)]; norm_num [List.sum_cons]⟩
  intro l hl
  have hlen : l.length ≠ 0 := fun h => hl (List.length_eq_zero.mp h)
  exact ⟨Nat.cast_ne_zero.mpr hlen, by rw [mean, if_neg hl]⟩

/-- Witness for claim C3: `mean_spec` applied at the concrete non-empty list `[1, 3]`. -/
theorem mean_spec_witness :
    ((([1, 3] : List ℚ).length : ℚ) ≠ 0 ∧
      mean [1, 3] = ([1, 3] : List ℚ).sum / (([1, 3] : List ℚ).length : ℚ)) :=
  mean_spec.2.1 [1, 3] (by decide)

/-- Claim C5: `flatten` concatenates the sublists, removing exactly one level of
nesting (it agrees with `List.flatten`); in particular
`flatten([[1,2],[3]]) = [1,2,3]`. -/
theorem flatten_spec :
    (∀ (α : Type) (ll : List (List α)), flatten ll = ll.flatten) ∧
    flatten ([[1, 2], [3]] : List (List Int)) = [1, 2, 3] := by
  exact ⟨fun α ll => flatten_eq_flatten ll, by rfl⟩

/-- Claim C7: the `__main__` loop never exits — after any number of steps it is
still running, at the expected iteration count — and every iteration consists
of one `track_fresh_mints()` call at the default lookback 5000 followed by a
300-second sleep. -/
theorem main_loop_forever :
    (∀ n : Nat, run_loop n = some n) ∧
    (∀ slotResp acctsResp, main_iteration slotResp acctsResp =
      (track_fresh_mints 5000 slotResp acctsResp, 300)) := by
  constructor
  · intro n
    induction n with
    | zero => rfl
    | succ n ih => simp [run_loop, ih, loop_step, loop_guard]
  · intro slotResp acctsResp
    rfl

/-- Claim C10: `chunk_list` returns the empty list for every negative size, and for
size 0 on a non-empty list it raises (the zero step of the underlying `range`
is a `ValueError`) rather than returning a value. -/
theorem chunk_list_nonpos :
    (∀ (data : List Int) (size : Int), size < 0 → chunk_list data size = some []) ∧
    (∀ data : List Int, data ≠ [] → chunk_list data 0 = none) := by
  constructor
  · intro data size h
    have h0 : ¬ size = 0 := by omega
    have h1 : ¬ 0 < size := by omega
    unfold chunk_list pyRange
    rw [if_neg h0, if_neg h1]
    have h4 : (((0 : Int) - (data.length : Int)).toNat + (-size).toNat - 1) / (-size).toNat = 0 := by
      have h2 : ((0 : Int) - (data.length : Int)).toNat = 0 := by omega
      rw [h2]
      exact Nat.div_eq_of_lt (by omega)
    rw [h4]
    rfl
  · intro data _
    simp [chunk_list, pyRange]

/-- Witness for claim C10: `chunk_list_nonpos` applied at the concrete list `[5]` with
sizes `-2` and `0`. -/
theorem chunk_list_nonpos_witness :
    chunk_list ([5] : List Int) (-2) = some [] ∧ chunk_list ([5] : List Int) 0 = none :=
  ⟨chunk_list_nonpos.1 [5] (-2) (by decide), chunk_list_nonpos.2 [5] (by decide)⟩

/-- Claim C2: on the fabricated response with account slots `[10, 100, 200]`,
current slot 150 and lookback 100, `track_fresh_mints` keeps exactly the
account with slot 100. -/
theorem track_fresh_mints_example :
    track_fresh_mints 100 (Except.ok 150)
      (Except.ok [{ pubkey := "A", data := [0, 10] },
                  { pubkey := "B", data := [0, 100] },
                  { pubkey := "C", data := [0, 200] }]) =
    Except.ok [{ mint := "B", firstSeenSlot := 100 }] := by
  rfl

/-- Claim C4: for every positive size, `chunk_list` splits the list into consecutive
chunks (their concatenation restores the list), every chunk except possibly
the last having exactly the requested size and every chunk being non-empty
and no longer than the requested size; in particular
`chunk_list([1,2,3,4,5], 2) = [[1,2],[3,4],[5]]`. -/
theorem chunk_list_spec :
    (∀ (data : List Int) (size : Int) (cs : List (List Int)), 0 < size →
        chunk_list data size = some cs →
        cs.flatten = data ∧
        (∀ c ∈ cs.dropLast, c.length = size.toNat) ∧
        (∀ c ∈ cs, c.length ≤ size.toNat ∧ c ≠ [])) ∧
    chunk_list ([1, 2, 3, 4, 5] : List Int) 2 = some [[1, 2], [3, 4], [5]] := by
  constructor
  · intro data size cs hpos heq
    obtain ⟨s, rfl⟩ : ∃ s : Nat, size = (s : Int) + 1 := ⟨size.toNat - 1, by omega⟩
    rw [chunk_list_pos s data] at heq
    injection heq with h
    subst h
    have htn : ((s : Int) + 1).toNat = s + 1 := by omega
    rw [htn]
    exact ⟨chunksAux_flatten s data, (chunksAux_shape s data).1, (chunksAux_shape s data).2⟩
  · rfl

/-- Witness for claim C4: `chunk_list_spec` applied at `data = [1,2,3]`, `size = 2`,
whose chunking is `[[1,2],[3]]`. -/
theorem chunk_list_spec_witness :
    ([[1, 2], [3]] : List (List Int)).flatten = [1, 2, 3] ∧
    (∀ c ∈ ([[1, 2], [3]] : List (List Int)).dropLast, c.length = (2 : Int).toNat) ∧
    (∀ c ∈ ([[1, 2], [3]] : List (List Int)), c.length ≤ (2 : Int).toNat ∧ c ≠ []) :=
  chunk_list_spec.1 [1, 2, 3] 2 [[1, 2], [3]] (by decide) (by rfl)

/-- Claim C9: for every list and every positive size, chunking succeeds and
flattening the chunks restores the original list. -/
theorem flatten_chunk_list_id :
    ∀ (data : List Int) (size : Int), 0 < size →
      (chunk_list data size).map flatten = some data := by
  intro data size hpos
  obtain ⟨s, rfl⟩ : ∃ s : Nat, size = (s : Int) + 1 := ⟨size.toNat - 1, by omega⟩
  rw [chunk_list_pos s data, Option.map_some', flatten_eq_flatten, chunksAux_flatten]

/-- Witness for claim C9: `flatten_chunk_list_id` applied at `data = [1,2,3,4,5]`,
`size = 3`. -/
theorem flatten_chunk_list_id_witness :
    (chunk_list ([1, 2, 3, 4, 5] : List Int) 3).map flatten = some [1, 2, 3, 4, 5] :=
  flatten_chunk_list_id [1, 2, 3, 4, 5] 3 (by decide)

lemma decodeSlot_ok_iff (a : Account) (s : Int) :
    decodeSlot a = Except.ok s ↔ a.data.get? 1 = some s := by
  unfold decodeSlot
  cases h : a.data.get? 1 <;> simp

lemma decodeSlot_of_none (a : Account) (h : a.data.get? 1 = none) :
    decodeSlot a = Except.error "IndexError" := by
  unfold decodeSlot
  rw [h]

/-- Value of a successful `freshLoop` run: the accumulator followed by the
in-window accounts, in order. -/
lemma freshLoop_ok (start cur : Int) :
    ∀ (accts : List Account) (acc res : List FreshMint),
      freshLoop start cur acc accts = Except.ok res →
      res = acc ++ accts.filterMap (fun a =>
        (a.data.get? 1).bind (fun s =>
          if start ≤ s ∧ s ≤ cur then
            some { mint := a.pubkey, firstSeenSlot := s } else none)) := by
  intro accts
  induction accts with
  | nil =>
    intro acc res h
    rw [freshLoop] at h
    injection h with h
    simp [h]
  | cons a t ih =>
    intro acc res h
    rw [freshLoop] at h
    cases hd : decodeSlot a with
    | error e =>
      rw [hd] at h
      exact absurd h (by simp)
    | ok slot =>
      have hget : a.data.get? 1 = some slot := (decodeSlot_ok_iff a slot).mp hd
      rw [hd] at h
      dsimp only at h
      have hget2 : a.data[1]? = some slot := by simpa using hget
      by_cases hc : start ≤ slot ∧ slot ≤ cur
      · rw [if_pos hc] at h
        have hres := ih _ _ h
        rw [hres]
        simp [List.filterMap_cons, hget2, hc]
      · rw [if_neg hc] at h
        have hres := ih _ _ h
        rw [hres]
        simp [List.filterMap_cons, hget2, hc]

lemma freshLoop_ok_of_decodable (start cur : Int) :
    ∀ (accts : List Account) (acc : List FreshMint),
      (∀ a ∈ accts, 2 ≤ a.data.length) →
      ∃ res, freshLoop start cur acc accts = Except.ok res := by
  intro accts
  induction accts with
  | nil =>
    intro acc _
    exact ⟨acc, by rw [freshLoop]⟩
  | cons a t ih =>
    intro acc hall
    have hget : (a.data.get? 1).isSome := by
      rw [Option.isSome_iff_ne_none]
      intro hn
      have := List.get?_eq_none.mp hn
      have := hall a (List.mem_cons_self a t)
      omega
    obtain ⟨slot, hs⟩ := Option.isSome_iff_exists.mp hget
    have hd : decodeSlot a = Except.ok slot := (decodeSlot_ok_iff a slot).mpr hs
    have hall2 : ∀ b ∈ t, 2 ≤ b.data.length := fun b hb => hall b (List.mem_cons_of_mem a hb)
    rw [freshLoop, hd]
    dsimp only
    by_cases hc : start ≤ slot ∧ slot ≤ cur
    · rw [if_pos hc]
      exact ih _ hall2
    · rw [if_neg hc]
      exact ih _ hall2

lemma freshLoop_err_of_short (start cur : Int) :
    ∀ (accts : List Account) (acc : List FreshMint),
      (∃ a ∈ accts, a.data.length < 2) →
      ∃ e, freshLoop start cur acc accts = Except.error e := by
  intro accts
  induction accts with
  | nil =>
    intro acc h
    exact absurd h (by simp)
  | cons a t ih =>
    intro acc h
    rw [freshLoop]
    cases hd : decodeSlot a with
    | error e => exact ⟨e, rfl⟩
    | ok slot =>
      have hget : a.data.get? 1 = some slot := (decodeSlot_ok_iff a slot).mp hd
      have hlen : 2 ≤ a.data.length := by
        by_contra hcon
        rw [List.get?_eq_none.mpr (by omega)] at hget
        exact absurd hget (by simp)
      have ht : ∃ b ∈ t, b.data.length < 2 := by
        rcases h with ⟨b, hb, hblen⟩
        rcases List.mem_cons.mp hb with rfl | hbt
        · omega
        · exact ⟨b, hbt, hblen⟩
      dsimp only
      by_cases hc : start ≤ slot ∧ slot ≤ cur
      · rw [if_pos hc]
        exact ih _ ht
      · rw [if_neg hc]
        exact ih _ ht

/-- Claim C1: whenever `track_fresh_mints` returns normally, the returned list is
exactly the accounts whose decoded slot field `data[1]` lies in the window
`[current_slot - lookback_slots, current_slot]`, in order, each record pairing
the pubkey of the account as `mint` with that slot; in particular the
`firstSeenSlot` of every returned record lies in the window. -/
theorem track_fresh_mints_window :
    ∀ (lookback cs : Int) (accts : List Account) (res : List FreshMint),
      track_fresh_mints lookback (Except.ok cs) (Except.ok accts) = Except.ok res →
      res = accts.filterMap (fun a =>
        (a.data.get? 1).bind (fun s =>
          if cs - lookback ≤ s ∧ s ≤ cs then
            some { mint := a.pubkey, firstSeenSlot := s } else none)) ∧
      ∀ r ∈ res, cs - lookback ≤ r.firstSeenSlot ∧ r.firstSeenSlot ≤ cs := by
  intro lookback cs accts res h
  have hloop : freshLoop (cs - lookback) cs [] accts = Except.ok res := h
  have hres := freshLoop_ok (cs - lookback) cs accts [] res hloop
  rw [List.nil_append] at hres
  refine ⟨hres, ?_⟩
  intro r hr
  rw [hres] at hr
  rcases List.mem_filterMap.mp hr with ⟨a, _, hfa⟩
  rcases Option.bind_eq_some.mp hfa with ⟨s, _, hif⟩
  by_cases hc : cs - lookback ≤ s ∧ s ≤ cs
  · rw [if_pos hc] at hif
    injection hif with hif
    rw [← hif]
    exact hc
  · rw [if_neg hc] at hif
    exact absurd hif (by simp)

/-- Witness for claim C1: `track_fresh_mints_window` applied at lookback 100, current
slot 150 and the three accounts with slots 10, 100 and 200. -/
theorem track_fresh_mints_window_witness :
    ([{ mint := "B", firstSeenSlot := 100 }] : List FreshMint) =
      ([{ pubkey := "A", data := [0, 10] },
        { pubkey := "B", data := [0, 100] },
        { pubkey := "C", data := [0, 200] }] : List Account).filterMap (fun a =>
        (a.data.get? 1).bind (fun s =>
          if 150 - 100 ≤ s ∧ s ≤ 150 then
            some { mint := a.pubkey, firstSeenSlot := s } else none)) ∧
    ∀ r ∈ ([{ mint := "B", firstSeenSlot := 100 }] : List FreshMint),
      150 - 100 ≤ r.firstSeenSlot ∧ r.firstSeenSlot ≤ 150 :=
  track_fresh_mints_window 100 150
    [{ pubkey := "A", data := [0, 10] },
     { pubkey := "B", data := [0, 100] },
     { pubkey := "C", data := [0, 200] }]
    [{ mint := "B", firstSeenSlot := 100 }] (by rfl)

/-- Claim C6: `track_fresh_mints` contains no error handling: an error of the
`get_slot` call propagates unchanged, an error of the `get_program_accounts`
call propagates unchanged, and when both RPC calls succeed the function
returns normally exactly when the data field of every account decodes (has an
index 1). -/
theorem track_fresh_mints_error_prop :
    (∀ (lb : Int) (slotResp : Except String Int)
        (acctsResp : Except String (List Account)) (e : String),
        slotResp = Except.error e →
        track_fresh_mints lb slotResp acctsResp = Except.error e) ∧
    (∀ (lb cs : Int) (acctsResp : Except String (List Account)) (e : String),
        acctsResp = Except.error e →
        track_fresh_mints lb (Except.ok cs) acctsResp = Except.error e) ∧
    (∀ (lb cs : Int) (accts : List Account),
        (∃ res, track_fresh_mints lb (Except.ok cs) (Except.ok accts) = Except.ok res) ↔
          ∀ a ∈ accts, 2 ≤ a.data.length) := by
  refine ⟨?_, ?_, ?_⟩
  · intro lb slotResp acctsResp e h
    subst h
    rfl
  · intro lb cs acctsResp e h
    subst h
    rfl
  · intro lb cs accts
    constructor
    · intro ⟨res, hres⟩
      by_contra hcon
      push_neg at hcon
      obtain ⟨a, ha, hlen⟩ := hcon
      obtain ⟨e, he⟩ := freshLoop_err_of_short (cs - lb) cs accts [] ⟨a, ha, by omega⟩
      have hcontra : (Except.error e : Except String (List FreshMint)) = Except.ok res := by
        rw [← he]
        exact hres
      exact absurd hcontra (by simp)
    · intro hall
      exact freshLoop_ok_of_decodable (cs - lb) cs accts [] hall

/-- Witness for claim C6: `track_fresh_mints_error_prop` applied to a failing slot call,
a failing program-accounts call, and a decodable account list. -/
theorem track_fresh_mints_error_prop_witness :
    track_fresh_mints 5 (Except.error "boom") (Except.ok []) = Except.error "boom" ∧
    track_fresh_mints 5 (Except.ok 7) (Except.error "down") = Except.error "down" ∧
    ((∃ res, track_fresh_mints 5 (Except.ok 7)
        (Except.ok [{ pubkey := "A", data := [0, 3] }]) = Except.ok res) ↔
      ∀ a ∈ ([{ pubkey := "A", data := [0, 3] }] : List Account), 2 ≤ a.data.length) :=
  ⟨track_fresh_mints_error_prop.1 5 (Except.error "boom") (Except.ok []) "boom" rfl,
   track_fresh_mints_error_prop.2.1 5 7 (Except.error "down") "down" rfl,
   track_fresh_mints_error_prop.2.2 5 7 [{ pubkey := "A", data := [0, 3] }]⟩

/-- Counterexample for claim C8: `now_ms` takes no Python arguments yet reads the
ambient clock, so two calls with the same (empty) argument list made at clock
readings 0 and 1 return the different values 0 and 1000; the helpers are
therefore not all independent of outside state. -/
theorem now_ms_clock_dependent :
    now_ms 0 = 0 ∧ now_ms 1 = 1000 ∧ now_ms 0 ≠ now_ms 1 := by
  have e0 : ((0 : ℚ) * 1000) = 0 := by norm_num
  have e1 : ((1 : ℚ) * 1000) = 1000 := by norm_num
  unfold now_ms
  rw [e0, e1]
  norm_num [Rat.num_ofNat, Rat.den_ofNat]

/-- Amended claim C8: `chunk_list`, `flatten` and `mean` are deterministic functions
of their arguments alone, and `now_ms`, while free of side effects, is
deterministic only once the ambient clock reading is fixed. -/
theorem utils_deterministic :
    (∀ t t2 : ℚ, t = t2 → now_ms t = now_ms t2) ∧
    (∀ (data data2 : List Int) (size size2 : Int), data = data2 → size = size2 →
      chunk_list data size = chunk_list data2 size2) ∧
    (∀ ll ll2 : List (List Int), ll = ll2 → flatten ll = flatten ll2) ∧
    (∀ vs vs2 : List ℚ, vs = vs2 → mean vs = mean vs2) := by
  refine ⟨?_, ?_, ?_, ?_⟩ <;> intros <;> subst_vars <;> rfl

/-- Witness for claim C8: `utils_deterministic` applied at concrete arguments. -/
theorem utils_deterministic_witness :
    now_ms 2 = now_ms 2 ∧ chunk_list ([1] : List Int) 1 = chunk_list [1] 1 ∧
    flatten ([[1]] : List (List Int)) = flatten [[1]] ∧ mean [1] = mean [1] :=
  ⟨utils_deterministic.1 2 2 rfl, utils_deterministic.2.1 [1] [1] 1 1 rfl rfl,
   utils_deterministic.2.2.1 [[1]] [[1]] rfl, utils_deterministic.2.2.2 [1] [1] rfl⟩
